import Mathlib

/-!
Verification of the embedding service of this repository
(`app/core/embeddings.py`) against its natural-language specification.

The Python floats are idealised as real numbers (`ℝ`); numpy's
`ValueError` / `ZeroDivisionError` conditions are surfaced through an
explicit `Except` error type.
-/

namespace EmbSvc

/-- Embedding vectors are in-memory sequences of floating-point numbers,
idealised here as lists of reals. -/
abbrev Vec := List ℝ

/-- Error conditions raised by the numpy-backed vector code:
`np.dot` on 1-D arrays of different lengths raises `ValueError`
(dimension mismatch); `np.array` on a ragged nested list raises
`ValueError`; `np.average` raises `ValueError` when the weights count
does not match and `ZeroDivisionError` when the weights sum to zero. -/
inductive EmbError where
  | dimensionMismatch
  | raggedInput
  | weightCountMismatch
  | zeroWeightSum
  deriving Repr, DecidableEq

/-- Dot product of two vectors, `np.dot(vec1_np, vec2_np)` on the common
prefix (the lengths are checked separately: numpy raises on a mismatch
before any value is produced). -/
def dotList (a b : Vec) : ℝ := (List.zipWith (· * ·) a b).sum

/-- Sum of squares of the components. -/
def normSq (a : Vec) : ℝ := (a.map (fun x => x * x)).sum

/-- Euclidean magnitude, `np.linalg.norm`. -/
noncomputable def magnitude (a : Vec) : ℝ := Real.sqrt (normSq a)

/-- `EmbeddingService.cosine_similarity` (embeddings.py:80-110):
computes `np.dot` of the two vectors (which raises `ValueError` when the
1-D shapes differ), then the two magnitudes; returns `0.0` when either
magnitude is zero, and otherwise the dot product divided by the product
of the magnitudes. -/
noncomputable def cosine_similarity (vec1 vec2 : Vec) : Except EmbError ℝ :=
  if vec1.length = vec2.length then
    if magnitude vec1 = 0 ∨ magnitude vec2 = 0 then
      Except.ok 0
    else
      Except.ok (dotList vec1 vec2 / (magnitude vec1 * magnitude vec2))
  else
    Except.error EmbError.dimensionMismatch

/-- Pointwise sum of a list of vectors of common length `m`,
the column sums taken by `np.mean`/`np.average` along `axis=0`. -/
def sumVecs (m : ℕ) (l : List Vec) : Vec :=
  l.foldr (fun v acc => List.zipWith (· + ·) v acc) (List.replicate m 0)

/-- `EmbeddingService.combine_embeddings` (embeddings.py:112-139):
an empty input returns `[]` before anything else happens; `np.array`
raises `ValueError` on a ragged nested list; with no weights the
per-component mean is returned (`np.mean(..., axis=0)`); with weights,
`np.average(..., axis=0, weights=...)` raises `ValueError` when the
weight count differs from the row count, raises `ZeroDivisionError`
when the weights sum to zero, and otherwise returns the weighted sums
divided by the weight total. -/
noncomputable def combine_embeddings (embeddings : List Vec)
    (weights : Option (List ℝ)) : Except EmbError Vec :=
  match embeddings with
  | [] => Except.ok []
  | e₀ :: rest =>
    if (e₀ :: rest).all (fun e => e.length = e₀.length) then
      match weights with
      | none =>
          Except.ok ((sumVecs e₀.length (e₀ :: rest)).map
            (fun x => x / ((e₀ :: rest).length : ℝ)))
      | some w =>
          if w.length = (e₀ :: rest).length then
            if w.sum = 0 then
              Except.error EmbError.zeroWeightSum
            else
              Except.ok ((sumVecs e₀.length
                  (List.zipWith (fun c v => v.map (fun x => c * x)) w (e₀ :: rest))).map
                (fun x => x / w.sum))
          else
            Except.error EmbError.weightCountMismatch
    else
      Except.error EmbError.raggedInput

/-- Stable insertion (descending by score): the inserted element is placed
before the first element whose score it meets or exceeds, hence after any
earlier-inserted element with a strictly greater or equal score. -/
noncomputable def insertDesc (a : ℕ × ℝ) : List (ℕ × ℝ) → List (ℕ × ℝ)
  | [] => [a]
  | b :: l => if b.2 ≤ a.2 then a :: b :: l else b :: insertDesc a l

/-- `similarities.sort(key=lambda x: x[1], reverse=True)` is a stable sort
by descending score.  A stable sort's output is determined uniquely by the
comparison key, so it is modelled by stable insertion sort: `foldr` inserts
elements from the right, and `insertDesc` places each element before those
with strictly smaller score and before later (right-hand) elements of equal
score, preserving the original relative order of equal scores. -/
noncomputable def sortDesc (l : List (ℕ × ℝ)) : List (ℕ × ℝ) :=
  l.foldr insertDesc []

/-- Python list slicing `l[:k]` for an `int` bound `k`: a nonnegative `k`
takes the first `k` elements; a negative `k` drops the last `-k`. -/
def pySlice {α : Type} (k : ℤ) (l : List α) : List α :=
  if 0 ≤ k then l.take k.toNat else l.take ((l.length : ℤ) + k).toNat

/-- The scoring loop of `semantic_search` (embeddings.py:161-165):
`for i, candidate in enumerate(candidates): similarities.append((i,
cosine_similarity(query, candidate)))`, propagating the first raised
error; `i` starts at the given offset. -/
noncomputable def scoreAll (query : Vec) : List Vec → ℕ → Except EmbError (List (ℕ × ℝ))
  | [], _ => Except.ok []
  | c :: rest, i =>
    match cosine_similarity query c with
    | Except.error e => Except.error e
    | Except.ok s =>
      match scoreAll query rest (i + 1) with
      | Except.error e => Except.error e
      | Except.ok tail => Except.ok ((i, s) :: tail)

/-- `EmbeddingService.semantic_search` (embeddings.py:141-171): an empty
candidate list returns `[]` immediately; otherwise every candidate is
scored against the query with `cosine_similarity` (any raised error
propagates), the `(index, score)` pairs are sorted by descending score
with Python's stable sort, and the slice `similarities[:top_k]` is
returned. -/
noncomputable def semantic_search (query : Vec) (cands : List Vec)
    (top_k : ℤ) : Except EmbError (List (ℕ × ℝ)) :=
  if cands.isEmpty then
    Except.ok []
  else
    match scoreAll query cands 0 with
    | Except.error e => Except.error e
    | Except.ok sims => Except.ok (pySlice top_k (sortDesc sims))

/-- ASCII whitespace stripped by Python's `str.strip()`:
space, tab, newline, carriage return, vertical tab, form feed. -/
def pyWhitespace (c : Char) : Bool :=
  c == ' ' || c == '\t' || c == '\n' || c == '\r' ||
    c == Char.ofNat 11 || c == Char.ofNat 12

/-- `not text.strip()`: the text is empty or consists only of whitespace. -/
def strBlank (s : String) : Bool := s.toList.all pyWhitespace

/-- Observable outcome of one `embed_text` call: the returned vector or
the propagated provider exception, whether the warning branch was taken,
and how many times the external provider was invoked. -/
structure EmbedOutcome where
  result : Except String Vec
  warned : Bool
  providerCalls : ℕ

/-- `EmbeddingService.embed_text` (embeddings.py:33-55), parameterised by
the configured dimension and by the external provider
(`openai_embeddings.aembed_query`): a blank text logs a warning and
returns a zero vector of the configured dimension without calling the
provider; otherwise the provider is called once and its result (or its
exception, logged and re-raised) is returned. -/
def embed_text (dims : ℕ) (provider : String → Except String Vec)
    (text : String) : EmbedOutcome :=
  if strBlank text then
    { result := Except.ok (List.replicate dims 0), warned := true, providerCalls := 0 }
  else
    { result := provider text, warned := false, providerCalls := 1 }

/-- The dictionary returned by `health_check`, with the optional keys of
the two branches. -/
structure HealthStatus where
  status : String
  model : String
  dimensions : ℕ
  test_embedding_length : Option ℕ
  errorMsg : Option String

/-- `EmbeddingService.health_check` (embeddings.py:173-198): embeds the
probe text `"health check"`; on success returns the `"healthy"` status
dictionary with the model, dimensions and test-embedding length, and on
any exception returns the `"unhealthy"` dictionary with the error
message, model and dimensions — it never re-raises. -/
def health_check (dims : ℕ) (model : String)
    (provider : String → Except String Vec) : HealthStatus :=
  match (embed_text dims provider "health check").result with
  | Except.ok e =>
      { status := "healthy", model := model, dimensions := dims,
        test_embedding_length := some e.length, errorMsg := none }
  | Except.error msg =>
      { status := "unhealthy", model := model, dimensions := dims,
        test_embedding_length := none, errorMsg := some msg }

/-- Modelled from the spec: program counter of one caller of the cache's
`getOrCompute` (spec §4.3, §5).  The Embedding Cache is absent from the
source (`embeddings.py` imports `functools.lru_cache` but never uses it),
so the per-fingerprint protocol is taken from the spec: a caller starts
`ready`; on a hit it finishes with the cached vector; on a miss it either
installs the in-flight marker and computes, or, finding the marker set,
waits for the in-flight computation and takes its stored result. -/
inductive TaskPc where
  | ready
  | computing
  | waiting
  | finished (v : Vec)

/-- Modelled from the spec: shared state of the cache for one fingerprint,
with two concurrent callers A and B of `getOrCompute` on the same text:
the stored entry, the per-fingerprint in-flight marker, the number of
`computeFn` invocations so far, and each caller's program counter. -/
structure CacheSys where
  entry : Option Vec
  inflight : Bool
  calls : ℕ
  pcA : TaskPc
  pcB : TaskPc

/-- Modelled from the spec: one atomic step of a caller of `getOrCompute`,
where `cv` is the vector `computeFn` produces for the fingerprint's text.
Returns the caller's new program counter, the new entry, the new in-flight
marker, and the number of `computeFn` invocations this step performs. -/
def taskStep (cv : Vec) (pc : TaskPc) (entry : Option Vec) (inflight : Bool) :
    TaskPc × Option Vec × Bool × ℕ :=
  match pc, entry, inflight with
  | TaskPc.ready, some v, infl => (TaskPc.finished v, some v, infl, 0)
  | TaskPc.ready, none, true => (TaskPc.waiting, none, true, 0)
  | TaskPc.ready, none, false => (TaskPc.computing, none, true, 1)
  | TaskPc.computing, _, _ => (TaskPc.finished cv, some cv, false, 0)
  | TaskPc.waiting, some v, infl => (TaskPc.finished v, some v, infl, 0)
  | TaskPc.waiting, none, infl => (TaskPc.waiting, none, infl, 0)
  | TaskPc.finished v, e, infl => (TaskPc.finished v, e, infl, 0)

/-- Modelled from the spec: the scheduler lets caller A (`true`) or
caller B (`false`) take one atomic step. -/
def sysStep (cv : Vec) (s : CacheSys) (t : Bool) : CacheSys :=
  if t then
    let r := taskStep cv s.pcA s.entry s.inflight
    { entry := r.2.1, inflight := r.2.2.1, calls := s.calls + r.2.2.2,
      pcA := r.1, pcB := s.pcB }
  else
    let r := taskStep cv s.pcB s.entry s.inflight
    { entry := r.2.1, inflight := r.2.2.1, calls := s.calls + r.2.2.2,
      pcA := s.pcA, pcB := r.1 }

/-- Modelled from the spec: run the two callers under an arbitrary
interleaving given by the schedule. -/
def runSched (cv : Vec) (sched : List Bool) (s : CacheSys) : CacheSys :=
  sched.foldl (sysStep cv) s

/-- Modelled from the spec: initial state for two concurrent callers that
both miss — the fingerprint is absent and nothing is in flight. -/
def initSys : CacheSys :=
  { entry := none, inflight := false, calls := 0,
    pcA := TaskPc.ready, pcB := TaskPc.ready }

/-- The deterministic order the spec asserts for ranked results: earlier
entries have a strictly greater score, or an equal score and a strictly
smaller candidate index. -/
def rankedBefore (a b : ℕ × ℝ) : Prop :=
  b.2 < a.2 ∨ (a.2 = b.2 ∧ a.1 < b.1)

/-- Invariant of the cache protocol: the entry only ever holds the value
computed for the fingerprint; a computing caller holds the in-flight
marker with the entry still absent; the marker is held only while some
caller computes, and by at most one; the number of `computeFn`
invocations is determined by the marker and the entry; and a finished
caller holds the computed value, which is then stored. -/
def cacheInv (cv : Vec) (s : CacheSys) : Prop :=
  (s.entry = none ∨ s.entry = some cv)
  ∧ (s.pcA = TaskPc.computing → s.entry = none ∧ s.inflight = true)
  ∧ (s.pcB = TaskPc.computing → s.entry = none ∧ s.inflight = true)
  ∧ (s.inflight = true → s.pcA = TaskPc.computing ∨ s.pcB = TaskPc.computing)
  ∧ ¬(s.pcA = TaskPc.computing ∧ s.pcB = TaskPc.computing)
  ∧ s.calls = (if s.inflight then 1 else 0) + (if s.entry.isSome then 1 else 0)
  ∧ (∀ v, s.pcA = TaskPc.finished v → v = cv)
  ∧ (∀ v, s.pcA = TaskPc.finished v → s.entry = some cv)
  ∧ (∀ v, s.pcB = TaskPc.finished v → v = cv)
  ∧ (∀ v, s.pcB = TaskPc.finished v → s.entry = some cv)

theorem normSq_nonneg (a : Vec) : 0 ≤ normSq a := by
  induction a with
  | nil => simp [normSq]
  | cons x xs ih =>
      simp only [normSq, List.map_cons, List.sum_cons]
      have hx : 0 ≤ x * x := mul_self_nonneg x
      have : normSq xs = (xs.map (fun x => x * x)).sum := rfl
      linarith [this ▸ ih]

theorem magnitude_nonneg (a : Vec) : 0 ≤ magnitude a := Real.sqrt_nonneg _

theorem magnitude_eq_zero_iff (a : Vec) : magnitude a = 0 ↔ normSq a = 0 := by
  unfold magnitude
  exact Real.sqrt_eq_zero (normSq_nonneg a)

theorem cosine_ok_of_length_eq {a b : Vec} (h : a.length = b.length) :
    ∃ r, cosine_similarity a b = Except.ok r := by
  unfold cosine_similarity
  rw [if_pos h]
  by_cases hz : magnitude a = 0 ∨ magnitude b = 0
  · exact ⟨0, by rw [if_pos hz]⟩
  · exact ⟨_, by rw [if_neg hz]⟩

theorem cosine_error_of_length_ne {a b : Vec} (h : a.length ≠ b.length) :
    cosine_similarity a b = Except.error EmbError.dimensionMismatch := by
  unfold cosine_similarity
  rw [if_neg h]

/-- C7: `cosine_similarity` fails with (exactly) the dimension-mismatch
error precisely when the two vectors have different lengths, and returns
a value precisely when the lengths are equal. -/
theorem cosine_similarity_dimension_contract (a b : Vec) :
    (cosine_similarity a b = Except.error EmbError.dimensionMismatch ↔
        a.length ≠ b.length)
    ∧ ((∃ r, cosine_similarity a b = Except.ok r) ↔ a.length = b.length) := by
  constructor
  · constructor
    · intro h hlen
      rcases cosine_ok_of_length_eq hlen with ⟨r, hr⟩
      rw [h] at hr
      exact Except.noConfusion hr
    · exact cosine_error_of_length_ne
  · constructor
    · rintro ⟨r, hr⟩
      by_contra hlen
      rw [cosine_error_of_length_ne hlen] at hr
      exact Except.noConfusion hr
    · exact cosine_ok_of_length_eq

/-- C2 (amended): for equal-length vectors, a zero magnitude on either
side yields the similarity `0.0` rather than an error. -/
theorem cosine_similarity_zero_magnitude (a b : Vec)
    (hlen : a.length = b.length)
    (hz : magnitude a = 0 ∨ magnitude b = 0) :
    cosine_similarity a b = Except.ok 0 := by
  unfold cosine_similarity
  rw [if_pos hlen, if_pos hz]

/-- C2 witness: the zero vector `[0]` against `[3]`. -/
theorem cosine_similarity_zero_magnitude_witness :
    ([(0 : ℝ)].length = [(3 : ℝ)].length ∧ magnitude [(0 : ℝ)] = 0) ∧
      cosine_similarity [(0 : ℝ)] [(3 : ℝ)] = Except.ok 0 := by
  have hm : magnitude [(0 : ℝ)] = 0 := by
    rw [magnitude_eq_zero_iff]
    simp [normSq]
  exact ⟨⟨rfl, hm⟩,
    cosine_similarity_zero_magnitude [(0 : ℝ)] [(3 : ℝ)] rfl (Or.inl hm)⟩

/-- C2 counterexample: `[0]` has magnitude exactly zero, yet against the
longer vector `[1, 2]` the code raises the dimension-mismatch error
(`np.dot` raises before the zero-magnitude branch is reached) instead of
returning `0.0`. -/
theorem cosine_similarity_zero_magnitude_counterexample :
    magnitude [(0 : ℝ)] = 0 ∧
      cosine_similarity [(0 : ℝ)] [(1 : ℝ), 2] =
        Except.error EmbError.dimensionMismatch := by
  constructor
  · rw [magnitude_eq_zero_iff]
    simp [normSq]
  · exact cosine_error_of_length_ne (by simp)

/-- C3 counterexample: on the empty list `combine_embeddings` returns the
empty vector — it does not fail (the code returns `[]` before examining
anything else). -/
theorem combine_embeddings_empty_counterexample :
    combine_embeddings [] none = Except.ok [] := rfl

/-- C3 (amended): for the empty list of vectors and any weights,
`combine_embeddings` returns the empty vector rather than an error. -/
theorem combine_embeddings_empty (w : Option (List ℝ)) :
    combine_embeddings [] w = Except.ok [] := rfl

/-- C4: a text that is empty or consists only of whitespace embeds to the
zero vector of the configured dimension with the warning branch taken and
no provider invocation. -/
theorem embed_text_blank (dims : ℕ) (provider : String → Except String Vec)
    (text : String) (h : ∀ c ∈ text.toList, pyWhitespace c = true) :
    embed_text dims provider text =
      { result := Except.ok (List.replicate dims 0), warned := true,
        providerCalls := 0 } := by
  have hb : strBlank text = true := by
    unfold strBlank
    exact List.all_eq_true.mpr h
  unfold embed_text
  rw [hb]
  rfl

/-- C4 witness: the whitespace-only text consisting of two spaces and a
newline, with a provider that would fail if it were called. -/
theorem embed_text_blank_witness :
    (∀ c ∈ ("  \n" : String).toList, pyWhitespace c = true) ∧
      embed_text 4 (fun _ => Except.error "boom") "  \n" =
        { result := Except.ok (List.replicate 4 0), warned := true,
          providerCalls := 0 } :=
  ⟨by decide, embed_text_blank 4 (fun _ => Except.error "boom") "  \n" (by decide)⟩

/-- C10: whatever the embedding provider does on the probe text,
`health_check` returns a status dictionary — `"healthy"` with model,
dimensions and test-embedding length on success, `"unhealthy"` with the
error message, model and dimensions on failure — and never re-raises. -/
theorem health_check_total (dims : ℕ) (model : String)
    (provider : String → Except String Vec) :
    (∃ e, provider "health check" = Except.ok e ∧
        health_check dims model provider =
          { status := "healthy", model := model, dimensions := dims,
            test_embedding_length := some e.length, errorMsg := none })
    ∨ (∃ msg, provider "health check" = Except.error msg ∧
        health_check dims model provider =
          { status := "unhealthy", model := model, dimensions := dims,
            test_embedding_length := none, errorMsg := some msg }) := by
  have hb : strBlank "health check" = false := by decide
  cases hp : provider "health check" with
  | error msg =>
      right
      exact ⟨msg, rfl, by simp [health_check, embed_text, hb, hp]⟩
  | ok e =>
      left
      exact ⟨e, rfl, by simp [health_check, embed_text, hb, hp]⟩

theorem cacheInv_init (cv : Vec) : cacheInv cv initSys := by
  simp [cacheInv, initSys]

theorem cacheInv_sysStep {cv : Vec} {s : CacheSys} (t : Bool)
    (h : cacheInv cv s) : cacheInv cv (sysStep cv s t) := by
  rcases s with ⟨entry, inflight, calls, pcA, pcB⟩
  obtain ⟨h1, h2, h3, h4, h5, h6, h7, h8, h9, h10⟩ := h
  cases t with
  | true =>
      cases pcA with
      | ready =>
          cases entry with
          | none =>
              cases inflight with
              | false => simp_all [cacheInv, sysStep, taskStep]
              | true => simp_all [cacheInv, sysStep, taskStep]
          | some v => simp_all [cacheInv, sysStep, taskStep]; assumption
      | computing => simp_all [cacheInv, sysStep, taskStep]
      | waiting =>
          cases entry with
          | none => simp_all [cacheInv, sysStep, taskStep]
          | some v => simp_all [cacheInv, sysStep, taskStep]; assumption
      | finished v => simp_all [cacheInv, sysStep, taskStep]; assumption
  | false =>
      cases pcB with
      | ready =>
          cases entry with
          | none =>
              cases inflight with
              | false => simp_all [cacheInv, sysStep, taskStep]
              | true => simp_all [cacheInv, sysStep, taskStep]
          | some v => simp_all [cacheInv, sysStep, taskStep]; assumption
      | computing => simp_all [cacheInv, sysStep, taskStep]
      | waiting =>
          cases entry with
          | none => simp_all [cacheInv, sysStep, taskStep]
          | some v => simp_all [cacheInv, sysStep, taskStep]; assumption
      | finished v => simp_all [cacheInv, sysStep, taskStep]; assumption

theorem cacheInv_runSched (cv : Vec) (sched : List Bool) (s : CacheSys)
    (h : cacheInv cv s) : cacheInv cv (runSched cv sched s) := by
  induction sched generalizing s with
  | nil => exact h
  | cons t rest ih => exact ih _ (cacheInv_sysStep t h)

/-- C9: in the spec's cache protocol, under every interleaving of two
concurrent callers of `getOrCompute` that both start from a miss on the
same fingerprint, if both callers finish then they received the identical
vector — the one `computeFn` produces for the text — and `computeFn` was
invoked exactly once.  The sequential double call is the schedule that
runs one caller to completion before the other starts. -/
theorem getOrCompute_once (computeFn : String → Vec) (text : String)
    (sched : List Bool) (vA vB : Vec)
    (hA : (runSched (computeFn text) sched initSys).pcA = TaskPc.finished vA)
    (hB : (runSched (computeFn text) sched initSys).pcB = TaskPc.finished vB) :
    vA = vB ∧ vA = computeFn text ∧
      (runSched (computeFn text) sched initSys).calls = 1 := by
  obtain ⟨h1, h2, h3, h4, h5, h6, h7a, h7b, h8a, h8b⟩ :=
    cacheInv_runSched (computeFn text) sched initSys (cacheInv_init _)
  have hva := h7a vA hA
  have hea := h7b vA hA
  have hvb := h8a vB hB
  refine ⟨hva.trans hvb.symm, hva, ?_⟩
  have hinf : (runSched (computeFn text) sched initSys).inflight = false := by
    cases hif : (runSched (computeFn text) sched initSys).inflight with
    | false => rfl
    | true =>
        rcases h4 hif with hc | hc
        · rw [hA] at hc
          exact TaskPc.noConfusion hc
        · rw [hB] at hc
          exact TaskPc.noConfusion hc
  rw [h6, hinf, hea]
  simp

/-- C9 witness: the schedule that lets caller A install the in-flight
marker and compute, then lets caller B hit the stored entry. -/
theorem getOrCompute_once_witness :
    ((runSched ((fun _ => [(1 : ℝ)]) "t") [true, true, false] initSys).pcA =
        TaskPc.finished [(1 : ℝ)] ∧
      (runSched ((fun _ => [(1 : ℝ)]) "t") [true, true, false] initSys).pcB =
        TaskPc.finished [(1 : ℝ)]) ∧
      ([(1 : ℝ)] = [(1 : ℝ)] ∧ [(1 : ℝ)] = (fun _ => [(1 : ℝ)]) "t" ∧
        (runSched ((fun _ => [(1 : ℝ)]) "t") [true, true, false] initSys).calls = 1) :=
  ⟨⟨rfl, rfl⟩,
    getOrCompute_once (fun _ => [(1 : ℝ)]) "t" [true, true, false]
      [(1 : ℝ)] [(1 : ℝ)] rfl rfl⟩

theorem zipWith_add_map_mul (c : ℝ) :
    ∀ (a b : Vec),
      List.zipWith (· + ·) (a.map (fun x => c * x)) (b.map (fun x => c * x)) =
        (List.zipWith (· + ·) a b).map (fun x => c * x) := by
  intro a
  induction a with
  | nil => intro b; rfl
  | cons x xs ih =>
      intro b
      cases b with
      | nil => rfl
      | cons y ys => simp [ih ys, mul_add]

theorem sumVecs_cons (m : ℕ) (x : Vec) (l : List Vec) :
    sumVecs m (x :: l) = List.zipWith (· + ·) x (sumVecs m l) := rfl

theorem sumVecs_uniform_scale (c : ℝ) (m : ℕ) :
    ∀ (embs : List Vec),
      sumVecs m (List.zipWith (fun w v => v.map (fun x => w * x))
          (List.replicate embs.length c) embs) =
        (sumVecs m embs).map (fun x => c * x) := by
  intro embs
  induction embs with
  | nil => simp [sumVecs]
  | cons v vs ih =>
      simp only [List.length_cons, List.replicate_succ, List.zipWith_cons_cons]
      rw [sumVecs_cons, sumVecs_cons, ih, zipWith_add_map_mul]

theorem combine_embeddings_cons_none (e₀ : Vec) (rest : List Vec) :
    combine_embeddings (e₀ :: rest) none =
      if (e₀ :: rest).all (fun e => e.length = e₀.length) then
        Except.ok ((sumVecs e₀.length (e₀ :: rest)).map
          (fun x => x / ((e₀ :: rest).length : ℝ)))
      else
        Except.error EmbError.raggedInput := rfl

theorem combine_embeddings_cons_some (e₀ : Vec) (rest : List Vec) (w : List ℝ) :
    combine_embeddings (e₀ :: rest) (some w) =
      if (e₀ :: rest).all (fun e => e.length = e₀.length) then
        if w.length = (e₀ :: rest).length then
          if w.sum = 0 then
            Except.error EmbError.zeroWeightSum
          else
            Except.ok ((sumVecs e₀.length
                (List.zipWith (fun c v => v.map (fun x => c * x)) w (e₀ :: rest))).map
              (fun x => x / w.sum))
        else
          Except.error EmbError.weightCountMismatch
      else
        Except.error EmbError.raggedInput := rfl

/-- C5 counterexample: the uniform weights `[0.0]` (all weights equal)
make `np.average` raise `ZeroDivisionError`, while omitting the weights
returns the mean, so the two calls do not agree. -/
theorem combine_embeddings_uniform_weights_counterexample :
    combine_embeddings [[(1 : ℝ)]] (some [0]) =
        Except.error EmbError.zeroWeightSum ∧
      combine_embeddings [[(1 : ℝ)]] none = Except.ok [1] := by
  constructor
  · simp [combine_embeddings]
  · simp [combine_embeddings, sumVecs]

/-- C5 (amended): for every non-empty list of equal-dimension vectors,
`combine_embeddings` with uniform NONZERO weights equals
`combine_embeddings` with weights omitted (the per-component mean).
With uniform zero weights the weighted call raises instead. -/
theorem combine_embeddings_uniform_weights (embs : List Vec) (c : ℝ) (d : ℕ)
    (hne : embs ≠ []) (hc : c ≠ 0) (hdim : ∀ e ∈ embs, e.length = d) :
    combine_embeddings embs (some (List.replicate embs.length c)) =
      combine_embeddings embs none := by
  rcases embs with _ | ⟨e₀, rest⟩
  · exact absurd rfl hne
  have h0 : e₀.length = d := hdim e₀ (List.mem_cons_self _ _)
  have hall : ((e₀ :: rest).all fun e => decide (e.length = e₀.length)) = true := by
    rw [List.all_eq_true]
    intro e he
    have h1 := hdim e he
    simp [h1, h0]
  have hn : ((e₀ :: rest).length : ℝ) ≠ 0 := Nat.cast_ne_zero.mpr (by simp)
  have hsum : (List.replicate (e₀ :: rest).length c).sum =
      ((e₀ :: rest).length : ℝ) * c := by
    rw [List.sum_replicate, nsmul_eq_mul]
  have hsum_ne : (List.replicate (e₀ :: rest).length c).sum ≠ 0 := by
    rw [hsum]
    exact mul_ne_zero hn hc
  rw [combine_embeddings_cons_some, combine_embeddings_cons_none,
    if_pos hall, if_pos hall, if_pos (List.length_replicate _ _),
    if_neg hsum_ne]
  congr 1
  rw [sumVecs_uniform_scale c e₀.length (e₀ :: rest), List.map_map, hsum]
  apply List.map_congr_left
  intro x _
  show c * x / (((e₀ :: rest).length : ℝ) * c) = x / ((e₀ :: rest).length : ℝ)
  rw [mul_comm (((e₀ :: rest).length : ℝ)) c, mul_div_mul_left x _ hc]

/-- C5 witness: two one-dimensional vectors with the uniform weight 2. -/
theorem combine_embeddings_uniform_weights_witness :
    (([[(1 : ℝ)], [3]] : List Vec) ≠ [] ∧ (2 : ℝ) ≠ 0 ∧
        (∀ e ∈ ([[(1 : ℝ)], [3]] : List Vec), e.length = 1)) ∧
      combine_embeddings [[(1 : ℝ)], [3]]
          (some (List.replicate ([[(1 : ℝ)], [3]] : List Vec).length 2)) =
        combine_embeddings [[(1 : ℝ)], [3]] none :=
  ⟨⟨by simp, by norm_num, by simp⟩,
    combine_embeddings_uniform_weights [[(1 : ℝ)], [3]] 2 1
      (by simp) (by norm_num) (by simp)⟩

theorem scoreAll_ok (q : Vec) :
    ∀ (cands : List Vec) (i : ℕ), (∀ c ∈ cands, c.length = q.length) →
      ∃ l, scoreAll q cands i = Except.ok l ∧
        l.length = cands.length ∧
        (∀ p ∈ l, i ≤ p.1 ∧ ∃ c ∈ cands, cosine_similarity q c = Except.ok p.2) ∧
        l.Pairwise (fun a b => a.1 < b.1) := by
  intro cands
  induction cands with
  | nil =>
      intro i _
      exact ⟨[], rfl, rfl, by simp, List.Pairwise.nil⟩
  | cons c rest ih =>
      intro i hdim
      obtain ⟨s, hs⟩ :=
        cosine_ok_of_length_eq (hdim c (List.mem_cons_self _ _)).symm
      obtain ⟨tail, htail, hlen, hmem, hpw⟩ :=
        ih (i + 1) (fun c' hc' => hdim c' (List.mem_cons_of_mem _ hc'))
      refine ⟨(i, s) :: tail, ?_, by simp [hlen], ?_, ?_⟩
      · simp only [scoreAll, hs, htail]
      · intro p hp
        rcases List.mem_cons.mp hp with rfl | hp'
        · exact ⟨le_refl i, c, List.mem_cons_self _ _, hs⟩
        · obtain ⟨hip, c', hc', hcos⟩ := hmem p hp'
          exact ⟨le_trans (Nat.le_succ i) hip, c', List.mem_cons_of_mem _ hc', hcos⟩
      · refine List.Pairwise.cons ?_ hpw
        intro p hp
        exact (hmem p hp).1

theorem scoreAll_mem (q : Vec) :
    ∀ (cands : List Vec) (i : ℕ) (l : List (ℕ × ℝ)),
      scoreAll q cands i = Except.ok l →
      ∀ p ∈ l, ∃ c, cosine_similarity q c = Except.ok p.2 := by
  intro cands
  induction cands with
  | nil =>
      intro i l hl p hp
      simp only [scoreAll] at hl
      cases hl
      exact absurd hp (List.not_mem_nil p)
  | cons c rest ih =>
      intro i l hl p hp
      cases hs : cosine_similarity q c with
      | error e =>
          simp only [scoreAll, hs] at hl
          exact Except.noConfusion hl
      | ok s =>
          cases ht : scoreAll q rest (i + 1) with
          | error e =>
              simp only [scoreAll, hs, ht] at hl
              exact Except.noConfusion hl
          | ok tail =>
              simp only [scoreAll, hs, ht] at hl
              cases hl
              rcases List.mem_cons.mp hp with rfl | hp'
              · exact ⟨c, hs⟩
              · exact ih (i + 1) tail ht p hp'

theorem insertDesc_perm (a : ℕ × ℝ) :
    ∀ l, List.Perm (insertDesc a l) (a :: l) := by
  intro l
  induction l with
  | nil => exact List.Perm.refl _
  | cons b t ih =>
      by_cases h : b.2 ≤ a.2
      · rw [insertDesc, if_pos h]
      · rw [insertDesc, if_neg h]
        exact (List.Perm.cons b ih).trans (List.Perm.swap a b t)

theorem sortDesc_perm : ∀ l, List.Perm (sortDesc l) l := by
  intro l
  induction l with
  | nil => exact List.Perm.refl _
  | cons a t ih =>
      show List.Perm (insertDesc a (sortDesc t)) (a :: t)
      exact (insertDesc_perm a (sortDesc t)).trans (List.Perm.cons a ih)

theorem rankedBefore_of_le {a x : ℕ × ℝ} (h1 : x.2 ≤ a.2) (h2 : a.1 < x.1) :
    rankedBefore a x := by
  rcases lt_or_eq_of_le h1 with h | h
  · exact Or.inl h
  · exact Or.inr ⟨h.symm, h2⟩

theorem rankedBefore_score_le {b x : ℕ × ℝ} (h : rankedBefore b x) : x.2 ≤ b.2 := by
  rcases h with h | ⟨h, _⟩
  · exact le_of_lt h
  · exact le_of_eq h.symm

theorem insertDesc_pairwise (a : ℕ × ℝ) :
    ∀ (l : List (ℕ × ℝ)), (∀ b ∈ l, a.1 < b.1) → l.Pairwise rankedBefore →
      (insertDesc a l).Pairwise rankedBefore := by
  intro l
  induction l with
  | nil =>
      intro _ _
      simp [insertDesc]
  | cons b t ih =>
      intro hidx hl
      by_cases h : b.2 ≤ a.2
      · rw [insertDesc, if_pos h]
        refine List.Pairwise.cons ?_ hl
        intro x hx
        rcases List.mem_cons.mp hx with rfl | hx'
        · exact rankedBefore_of_le h (hidx x (List.mem_cons_self _ _))
        · exact rankedBefore_of_le
            (le_trans (rankedBefore_score_le (List.rel_of_pairwise_cons hl hx')) h)
            (hidx x (List.mem_cons_of_mem _ hx'))
      · rw [insertDesc, if_neg h]
        push_neg at h
        refine List.Pairwise.cons ?_
          (ih (fun y hy => hidx y (List.mem_cons_of_mem _ hy)) (List.Pairwise.of_cons hl))
        intro x hx
        have hx' : x ∈ a :: t := (List.Perm.mem_iff (insertDesc_perm a t)).mp hx
        rcases List.mem_cons.mp hx' with rfl | hxt
        · exact Or.inl h
        · exact List.rel_of_pairwise_cons hl hxt

theorem sortDesc_pairwise :
    ∀ (l : List (ℕ × ℝ)), l.Pairwise (fun a b => a.1 < b.1) →
      (sortDesc l).Pairwise rankedBefore := by
  intro l
  induction l with
  | nil => intro _; exact List.Pairwise.nil
  | cons a t ih =>
      intro h
      show (insertDesc a (sortDesc t)).Pairwise rankedBefore
      refine insertDesc_pairwise a (sortDesc t) ?_ (ih (List.Pairwise.of_cons h))
      intro b hb
      exact List.rel_of_pairwise_cons h ((List.Perm.mem_iff (sortDesc_perm t)).mp hb)

theorem semantic_search_cons (q c0 : Vec) (crest : List Vec) (k : ℤ) :
    semantic_search q (c0 :: crest) k =
      match scoreAll q (c0 :: crest) 0 with
      | Except.error e => Except.error e
      | Except.ok sims => Except.ok (pySlice k (sortDesc sims)) := rfl

/-- C6 counterexample: `semantic_search` with `top_k = 0 < 1` returns the
empty result list — the code performs no validation of `top_k` and the
slice `similarities[:0]` is empty, so no `InvalidK` error is raised. -/
theorem semantic_search_invalid_k_counterexample :
    semantic_search [(0 : ℝ)] [[(0 : ℝ)]] 0 = Except.ok [] := by
  have hm : magnitude [(0 : ℝ)] = 0 := by
    rw [magnitude_eq_zero_iff]
    simp [normSq]
  have hc : cosine_similarity [(0 : ℝ)] [(0 : ℝ)] = Except.ok 0 := by
    unfold cosine_similarity
    rw [if_pos rfl, if_pos (Or.inl hm)]
  rw [semantic_search_cons]
  simp only [scoreAll, hc]
  simp [pySlice]

/-- C6 (amended): for every `k < 1` (here `k ≤ 0`) and equal-dimension
candidates, `semantic_search` does not fail: it returns the Python slice
`similarities[:k]` — the empty list for `k = 0`, and all but the last
`-k` scored results for negative `k`. -/
theorem semantic_search_nonpositive_k (q : Vec) (cands : List Vec) (k : ℤ)
    (hk : k ≤ 0) (hdim : ∀ c ∈ cands, c.length = q.length) :
    ∃ res, semantic_search q cands k = Except.ok res ∧
      res.length = if k = 0 then 0 else ((cands.length : ℤ) + k).toNat := by
  rcases cands with _ | ⟨c0, crest⟩
  · refine ⟨[], rfl, ?_⟩
    by_cases hk0 : k = 0
    · simp [hk0]
    · rw [if_neg hk0]
      simp [Int.toNat_of_nonpos hk]
  · obtain ⟨sims, hsims, hlen, _, _⟩ := scoreAll_ok q (c0 :: crest) 0 hdim
    refine ⟨pySlice k (sortDesc sims), ?_, ?_⟩
    · rw [semantic_search_cons, hsims]
    · have hsd : (sortDesc sims).length = (c0 :: crest).length := by
        rw [(sortDesc_perm sims).length_eq, hlen]
      by_cases hk0 : k = 0
      · subst hk0
        rw [if_pos rfl]
        unfold pySlice
        rw [if_pos (le_refl 0)]
        simp
      · rw [if_neg hk0]
        have hklt : k < 0 := lt_of_le_of_ne hk hk0
        unfold pySlice
        rw [if_neg (not_le.mpr hklt), List.length_take, hsd]
        apply min_eq_left
        rw [Int.toNat_le]
        have : ((c0 :: crest).length : ℤ) + k ≤ ((c0 :: crest).length : ℤ) := by
          omega
        simpa using this

/-- C6 witness: `k = -1` on two candidates returns one result, all but
the last. -/
theorem semantic_search_nonpositive_k_witness :
    ((-1 : ℤ) ≤ 0 ∧ ∀ c ∈ ([[(0 : ℝ)], [(0 : ℝ)]] : List Vec),
        c.length = [(0 : ℝ)].length) ∧
      ∃ res, semantic_search [(0 : ℝ)] [[(0 : ℝ)], [(0 : ℝ)]] (-1) = Except.ok res ∧
        res.length = if (-1 : ℤ) = 0 then 0
          else ((([[(0 : ℝ)], [(0 : ℝ)]] : List Vec).length : ℤ) + (-1)).toNat :=
  ⟨⟨by norm_num, by simp⟩,
    semantic_search_nonpositive_k [(0 : ℝ)] [[(0 : ℝ)], [(0 : ℝ)]] (-1)
      (by norm_num) (by simp)⟩

theorem pySlice_sublist {α : Type} (k : ℤ) (l : List α) :
    List.Sublist (pySlice k l) l := by
  unfold pySlice
  by_cases h : 0 ≤ k
  · rw [if_pos h]
    exact List.take_sublist _ _
  · rw [if_neg h]
    exact List.take_sublist _ _

theorem dotList_nil_left (b : Vec) : dotList [] b = 0 := rfl

theorem dotList_nil_right (a : Vec) : dotList a [] = 0 := by
  cases a <;> rfl

theorem dotList_cons (x y : ℝ) (xs ys : Vec) :
    dotList (x :: xs) (y :: ys) = x * y + dotList xs ys := by
  simp [dotList]

theorem normSq_cons (x : ℝ) (xs : Vec) :
    normSq (x :: xs) = x * x + normSq xs := by
  simp [normSq]

theorem dotList_sq_le (a : Vec) :
    ∀ b : Vec, (dotList a b) ^ 2 ≤ normSq a * normSq b := by
  induction a with
  | nil =>
      intro b
      rw [dotList_nil_left]
      simp [normSq]
  | cons x xs ih =>
      intro b
      cases b with
      | nil =>
          rw [dotList_nil_right]
          simp [normSq]
      | cons y ys =>
          rw [dotList_cons, normSq_cons, normSq_cons]
          have hd := ih ys
          have hA := normSq_nonneg xs
          have hB := normSq_nonneg ys
          rcases eq_or_lt_of_le hA with hA0 | hApos
          · have hd2 : dotList xs ys ^ 2 = 0 :=
              le_antisymm (by nlinarith) (sq_nonneg _)
            have hd0 : dotList xs ys = 0 :=
              (pow_eq_zero_iff (by norm_num : (2 : ℕ) ≠ 0)).mp hd2
            rw [hd0, ← hA0]
            nlinarith [mul_nonneg (mul_self_nonneg x) hB, sq_nonneg (x * y)]
          · have key : normSq xs *
                ((x * x + normSq xs) * (y * y + normSq ys)
                  - (x * y + dotList xs ys) ^ 2)
                = (x * dotList xs ys - normSq xs * y) ^ 2
                  + (normSq xs + x * x) * (normSq xs * normSq ys - dotList xs ys ^ 2) := by
              ring
            have h1 : 0 ≤ (x * dotList xs ys - normSq xs * y) ^ 2
                + (normSq xs + x * x) * (normSq xs * normSq ys - dotList xs ys ^ 2) :=
              add_nonneg (sq_nonneg _)
                (mul_nonneg (add_nonneg hA (mul_self_nonneg x)) (sub_nonneg.mpr hd))
            nlinarith [key, h1]

theorem abs_dotList_le (a b : Vec) : |dotList a b| ≤ magnitude a * magnitude b := by
  rw [← Real.sqrt_sq_eq_abs]
  unfold magnitude
  rw [← Real.sqrt_mul (normSq_nonneg a)]
  exact Real.sqrt_le_sqrt (dotList_sq_le a b)

theorem cosine_ok_bounds {a b : Vec} {s : ℝ}
    (h : cosine_similarity a b = Except.ok s) : -1 ≤ s ∧ s ≤ 1 := by
  unfold cosine_similarity at h
  by_cases hlen : a.length = b.length
  · rw [if_pos hlen] at h
    by_cases hz : magnitude a = 0 ∨ magnitude b = 0
    · rw [if_pos hz] at h
      injection h with h0
      rw [← h0]
      norm_num
    · rw [if_neg hz] at h
      injection h with h0
      push_neg at hz
      have h1 : 0 < magnitude a :=
        lt_of_le_of_ne (magnitude_nonneg a) (Ne.symm hz.1)
      have h2 : 0 < magnitude b :=
        lt_of_le_of_ne (magnitude_nonneg b) (Ne.symm hz.2)
      have hprod : 0 < magnitude a * magnitude b := mul_pos h1 h2
      have habs : |s| ≤ 1 := by
        rw [← h0, abs_div, abs_of_pos hprod]
        exact (div_le_one hprod).mpr (abs_dotList_le a b)
      exact abs_le.mp habs
  · rw [if_neg hlen] at h
    exact Except.noConfusion h

/-- C8: for equal-dimension vectors of nonzero magnitude the similarity
returned by `cosine_similarity` lies in `[-1, 1]` (Cauchy-Schwarz), and
hence every score in a result list produced by `semantic_search` lies in
`[-1, 1]`. -/
theorem similarity_scores_bounded :
    (∀ a b : Vec, a.length = b.length → magnitude a ≠ 0 → magnitude b ≠ 0 →
      ∃ s, cosine_similarity a b = Except.ok s ∧ -1 ≤ s ∧ s ≤ 1)
    ∧ (∀ (q : Vec) (cands : List Vec) (k : ℤ) (res : List (ℕ × ℝ)),
        semantic_search q cands k = Except.ok res →
        ∀ p ∈ res, -1 ≤ p.2 ∧ p.2 ≤ 1) := by
  constructor
  · intro a b hlen _ _
    obtain ⟨s, hs⟩ := cosine_ok_of_length_eq hlen
    exact ⟨s, hs, cosine_ok_bounds hs⟩
  · intro q cands k res hres p hp
    rcases cands with _ | ⟨c0, crest⟩
    · have hres' : Except.ok ([] : List (ℕ × ℝ)) = Except.ok res := hres
      injection hres' with h0
      rw [← h0] at hp
      exact absurd hp (List.not_mem_nil p)
    · cases hsims : scoreAll q (c0 :: crest) 0 with
      | error e =>
          rw [semantic_search_cons, hsims] at hres
          exact Except.noConfusion hres
      | ok sims =>
          rw [semantic_search_cons, hsims] at hres
          injection hres with hres'
          subst hres'
          have hp1 : p ∈ sortDesc sims := (pySlice_sublist k (sortDesc sims)).subset hp
          have hp2 : p ∈ sims := ((sortDesc_perm sims).mem_iff).mp hp1
          obtain ⟨c, hc⟩ := scoreAll_mem q (c0 :: crest) 0 sims hsims p hp2
          exact cosine_ok_bounds hc

/-- C8 witness: two unit vectors of dimension one, plus an empty search. -/
theorem similarity_scores_bounded_witness :
    (([(1 : ℝ)].length = [(1 : ℝ)].length ∧ magnitude [(1 : ℝ)] ≠ 0) ∧
      ∃ s, cosine_similarity [(1 : ℝ)] [(1 : ℝ)] = Except.ok s ∧ -1 ≤ s ∧ s ≤ 1) ∧
    (semantic_search [(1 : ℝ)] [] 3 = Except.ok [] ∧
      ∀ p ∈ ([] : List (ℕ × ℝ)), -1 ≤ p.2 ∧ p.2 ≤ 1) := by
  have hm : magnitude [(1 : ℝ)] ≠ 0 := by
    simp [magnitude, normSq]
  exact ⟨⟨⟨rfl, hm⟩, similarity_scores_bounded.1 [(1 : ℝ)] [(1 : ℝ)] rfl hm hm⟩,
    ⟨rfl, similarity_scores_bounded.2 [(1 : ℝ)] [] 3 [] rfl⟩⟩

/-- C1: ranking contract of `semantic_search` — an empty candidate list
yields an empty result (not an error) for every `k`; and for `k ≥ 1` and
equal-dimension candidates the result has length
`min k (candidate count)` (every candidate is scorable there), is sorted
by strictly descending score with equal scores broken by ascending
candidate index, and every returned score is a `cosine_similarity` value
of some candidate against the query. -/
theorem semantic_search_rank_contract (q : Vec) (cands : List Vec) (k : ℤ) :
    (∀ k' : ℤ, semantic_search q [] k' = Except.ok [])
    ∧ (1 ≤ k → (∀ c ∈ cands, c.length = q.length) →
        ∃ res, semantic_search q cands k = Except.ok res ∧
          res.length = min k.toNat cands.length ∧
          res.Pairwise rankedBefore ∧
          ∀ p ∈ res, ∃ c ∈ cands, cosine_similarity q c = Except.ok p.2) := by
  constructor
  · intro k'
    rfl
  · intro hk hdim
    rcases cands with _ | ⟨c0, crest⟩
    · exact ⟨[], rfl, by simp, List.Pairwise.nil, by simp⟩
    · obtain ⟨sims, hsims, hlen, hmem, hpw⟩ := scoreAll_ok q (c0 :: crest) 0 hdim
      refine ⟨pySlice k (sortDesc sims), ?_, ?_, ?_, ?_⟩
      · rw [semantic_search_cons, hsims]
      · have hk0 : (0 : ℤ) ≤ k := le_trans (by norm_num) hk
        unfold pySlice
        rw [if_pos hk0, List.length_take, (sortDesc_perm sims).length_eq, hlen]
      · exact List.Pairwise.sublist (pySlice_sublist k (sortDesc sims))
          (sortDesc_pairwise sims hpw)
      · intro p hp
        have hp1 : p ∈ sortDesc sims := (pySlice_sublist k (sortDesc sims)).subset hp
        have hp2 : p ∈ sims := ((sortDesc_perm sims).mem_iff).mp hp1
        exact (hmem p hp2).2

/-- C1 witness: one candidate, `k = 1`. -/
theorem semantic_search_rank_contract_witness :
    ((1 : ℤ) ≤ 1 ∧ ∀ c ∈ ([[(1 : ℝ)]] : List Vec), c.length = [(1 : ℝ)].length) ∧
      ∃ res, semantic_search [(1 : ℝ)] [[(1 : ℝ)]] 1 = Except.ok res ∧
        res.length = min (1 : ℤ).toNat ([[(1 : ℝ)]] : List Vec).length ∧
        res.Pairwise rankedBefore ∧
        ∀ p ∈ res, ∃ c ∈ ([[(1 : ℝ)]] : List Vec),
          cosine_similarity [(1 : ℝ)] c = Except.ok p.2 :=
  ⟨⟨le_refl 1, by simp⟩,
    (semantic_search_rank_contract [(1 : ℝ)] [[(1 : ℝ)]] 1).2 (le_refl 1) (by simp)⟩

end EmbSvc
